import Mathlib

/-!
Verification of the Hybrid Tool-Discovery and Ranking Engine of mcpproxy-go's
agent subsystem, shallowly embedded from
`src/agent/mcp_agent/tools/semantic_search.py` and
`src/agent/mcp_agent/graph/semantic_agent.py`.

Modelling conventions:
* Python floats are modelled as exact rationals (`ℚ`); the score formulas
  (0.7/0.3 weighting, rank decay `1 - i/N`) are pure arithmetic.
* Python dicts (insertion-ordered, last-write-wins) are modelled as
  association lists with `pySet` / `pyGet?`.
* `list.sort(key=..., reverse=True)` is Python's stable sort in descending
  key order; it is modelled by `pySortDesc`, insertion sort with the
  relation `key b ≤ key a` (stable: on ties the earlier element stays first).
* The ChromaDB vector store is an external collaborator; a query's result is
  a parameter.  For the Tool Index it keeps ChromaDB's per-query nesting
  (`ids` is a list of one hit list per query embedding, so a well-formed
  zero-hit response is `[[]]`), because `semantic_search` branches on the
  outer list and then reads `ids[0]`.  Numeric string formatting
  (`{x:.2f}`) is abstracted as a parameter `fmt : ℚ → String`.
-/

namespace MCPAgent

/-- Python dict assignment `d[k] = v` on an insertion-ordered association
list: replaces the value in place if the key exists, else appends. -/
def pySet {β : Type} (d : List (String × β)) (k : String) (v : β) :
    List (String × β) :=
  match d with
  | [] => [(k, v)]
  | (k', v') :: rest => if k' = k then (k, v) :: rest else (k', v') :: pySet rest k v

/-- Python dict lookup `d.get(k)`: first binding of the key. -/
def pyGet? {β : Type} (d : List (String × β)) (k : String) : Option β :=
  match d with
  | [] => none
  | (k', v) :: rest => if k' = k then some v else pyGet? rest k

/-- The keys of an association list, in insertion order. -/
def pyKeys {β : Type} (d : List (String × β)) : List String :=
  d.map Prod.fst

/-- Python's `str.strip()`: drop whitespace from both ends. -/
def pyStrip (s : String) : String :=
  ⟨((s.data.dropWhile Char.isWhitespace).reverse.dropWhile Char.isWhitespace).reverse⟩

/-- Python's `str.lower()` (ASCII case folding, as used on the query). -/
def toLowerStr (s : String) : String :=
  ⟨s.data.map Char.toLower⟩

/-- Python's substring test `pat in s`. -/
def strContains (s pat : String) : Bool :=
  decide (pat.data <:+: s.data)

/-- Python's two-argument `max` on numbers. -/
def pyMax (a b : ℚ) : ℚ :=
  if a ≤ b then b else a

theorem pyMax_eq_max (a b : ℚ) : pyMax a b = max a b := by
  simp [pyMax, max_def]

/-- The descending-key comparison underlying `sort(key=..., reverse=True)`. -/
def keyGe {α : Type} (key : α → ℚ) (a b : α) : Prop :=
  key b ≤ key a

instance {α : Type} (key : α → ℚ) : DecidableRel (keyGe key) :=
  fun a b => inferInstanceAs (Decidable (key b ≤ key a))

instance {α : Type} (key : α → ℚ) : IsTotal α (keyGe key) :=
  ⟨fun a b => le_total (key b) (key a)⟩

instance {α : Type} (key : α → ℚ) : IsTrans α (keyGe key) :=
  ⟨fun _ _ _ hab hbc => le_trans hbc hab⟩

/-- Python's `list.sort(key=key, reverse=True)`: stable sort, descending by
key.  Stable insertion sort with `keyGe` places an earlier element before any
later element with an equal key, exactly like CPython's stable sort. -/
def pySortDesc {α : Type} (key : α → ℚ) (l : List α) : List α :=
  l.insertionSort (keyGe key)

theorem pySortDesc_perm {α : Type} (key : α → ℚ) (l : List α) :
    List.Perm (pySortDesc key l) l :=
  List.perm_insertionSort _ l

theorem pySortDesc_sorted {α : Type} (key : α → ℚ) (l : List α) :
    List.Sorted (keyGe key) (pySortDesc key l) :=
  List.sorted_insertionSort _ l

theorem pySortDesc_stable {α : Type} (key : α → ℚ) {a b : α} {l : List α}
    (hab : key a = key b) (h : List.Sublist [a, b] l) :
    List.Sublist [a, b] (pySortDesc key l) :=
  List.pair_sublist_insertionSort (le_of_eq hab.symm) h

theorem pySortDesc_length {α : Type} (key : α → ℚ) (l : List α) :
    (pySortDesc key l).length = l.length :=
  List.length_insertionSort _ l

/-! ## Data model (`semantic_search.py`)

The `input_schema` payload is an opaque JSON blob that the ranking code never
reads (it is stored and echoed only), so it is not modelled. -/

/-- `ToolCandidate` (pydantic model): a scored tool candidate. -/
structure ToolCandidate where
  tool_name : String
  server_name : String
  description : String
  similarity_score : ℚ
  context_score : ℚ
  final_score : ℚ
  reasoning : String
deriving DecidableEq, Repr

/-- `SemanticSearchResult` (pydantic model). -/
structure SemanticSearchResult where
  query : String
  tools : List ToolCandidate
  total : ℕ
  reasoning : String
deriving DecidableEq, Repr

/-- One hit returned by the Tool Index (`tools_collection.query`): id,
distance, and the stored metadata fields the code reads. -/
structure ToolHit where
  id : String
  distance : ℚ
  server_name : String
  description : String
deriving DecidableEq, Repr

/-- `_get_server_context`: turn the Server Index hits (id, distance) into the
`server_scores` dict, mapping each server to `max(0, 1 - distance)`. -/
def _get_server_context (serverHits : List (String × ℚ)) : List (String × ℚ) :=
  serverHits.foldl (fun acc h => pySet acc h.1 (pyMax 0 (1 - h.2))) []

/-- Candidate construction for one Tool Index hit
(`semantic_search`, step 3). -/
def mkCandidate (fmt : ℚ → String) (server_scores : List (String × ℚ))
    (include_reasoning : Bool) (h : ToolHit) : ToolCandidate :=
  let similarity_score : ℚ := pyMax 0 (1 - h.distance)
  let context_score : ℚ := (pyGet? server_scores h.server_name).getD 0
  let final_score : ℚ := 7/10 * similarity_score + 3/10 * context_score
  let reasoning :=
    if include_reasoning then
      let base := "Similarity: " ++ fmt similarity_score ++
        ", Server relevance: " ++ fmt context_score
      if context_score > 1/2 then
        base ++ " (High relevance from " ++ h.server_name ++ ")"
      else base
    else ""
  { tool_name := h.id, server_name := h.server_name, description := h.description,
    similarity_score := similarity_score, context_score := context_score,
    final_score := final_score, reasoning := reasoning }

/-- `semantic_search`: rerank the Tool Index hits by
`0.7 * similarity + 0.3 * server context relevance`, truncate to `limit`.

`toolHitLists` is the store's `tools_collection.query` response in ChromaDB's
per-query nesting: one inner hit list per query embedding (`ids` /
`distances` / `metadatas` zipped per hit), so a well-formed response to the
single embedding the code passes is `[hits]` — and a zero-hit response is
`[[]]`, whose outer list is truthy.  The guard
`if not tool_results or not tool_results['ids']` tests the *outer* list
(a missing/falsy response), and the loop then reads the inner list
`ids[0]`. -/
def semantic_search (fmt : ℚ → String) (serverHits : List (String × ℚ))
    (toolHitLists : List (List ToolHit)) (query : String) (limit : ℕ)
    (include_reasoning : Bool) : SemanticSearchResult :=
  let server_scores := _get_server_context serverHits
  if toolHitLists.isEmpty then
    { query := query, tools := [], total := 0,
      reasoning := "No tools found matching the query" }
  else
    let toolHits := toolHitLists.headI
    let candidates := toolHits.map (mkCandidate fmt server_scores include_reasoning)
    let sorted := pySortDesc (fun c => c.final_score) candidates
    let top_candidates := sorted.take limit
    let overall := "Found " ++ toString candidates.length ++
      " candidates, selected top " ++ toString top_candidates.length ++
      " based on semantic similarity and server context"
    let overall :=
      if server_scores.isEmpty then overall
      else
        let top_servers := (pySortDesc (fun p => p.2) server_scores).take 3
        overall ++ ". Prioritized servers: " ++
          String.intercalate ", " (top_servers.map Prod.fst)
    { query := query, tools := top_candidates, total := top_candidates.length,
      reasoning := overall }

/-! ## Hybrid search (`hybrid_search`) -/

/-- One entry of the external keyword (BM25) collaborator's ranked list
(`/api/tools/search`); the fields the fusion code reads. -/
structure KeywordTool where
  name : String
  server : String
  description : String
deriving DecidableEq, Repr

/-- One value of the `tool_scores` dict in `hybrid_search`. -/
structure ScoreEntry where
  semantic : ℚ
  keyword : ℚ
  tool : ToolCandidate
deriving DecidableEq, Repr

/-- The `tool_scores` entry written for the semantic candidate at 0-based
rank `i` (`p = (i, tool)`, `N` the semantic list's length):
`semantic = final_score * (1 - i/N) * semantic_weight`, `keyword = 0`. -/
def semEntry (w : ℚ) (N : ℕ) (p : ℕ × ToolCandidate) : ScoreEntry :=
  ⟨p.2.final_score * (1 - (p.1 : ℚ) / (N : ℚ)) * w, 0, p.2⟩

/-- First phase of hybrid fusion: write each semantic candidate's entry. -/
def addSemanticScores (semTools : List ToolCandidate) (w : ℚ) :
    List (String × ScoreEntry) :=
  semTools.enum.foldl
    (fun acc p => pySet acc p.2.tool_name (semEntry w semTools.length p)) []

/-- The candidate `hybrid_search` fabricates for a keyword-only hit at
0-based rank `i`. -/
def keywordCandidate (kw : KeywordTool) (i : ℕ) (score : ℚ) : ToolCandidate :=
  { tool_name := kw.name, server_name := kw.server, description := kw.description,
    similarity_score := 0, context_score := 0, final_score := score,
    reasoning := "From keyword search (rank " ++ toString (i + 1) ++ ")" }

/-- One step of the keyword loop (`p = (i, kw)`, `M` the keyword list's
length): set the existing entry's `keyword = (1 - i/M) * (1 - w)`, or insert
a fabricated keyword-only candidate. -/
def kwStep (w : ℚ) (M : ℕ) (acc : List (String × ScoreEntry))
    (p : ℕ × KeywordTool) : List (String × ScoreEntry) :=
  match pyGet? acc p.2.name with
  | some e =>
    pySet acc p.2.name { e with keyword := (1 - (p.1 : ℚ) / (M : ℚ)) * (1 - w) }
  | none =>
    pySet acc p.2.name
      ⟨0, (1 - (p.1 : ℚ) / (M : ℚ)) * (1 - w),
        keywordCandidate p.2 p.1 ((1 - (p.1 : ℚ) / (M : ℚ)) * (1 - w))⟩

/-- Second phase of hybrid fusion: fold the keyword list into the
`tool_scores` dict. -/
def addKeywordScores (kwTools : List KeywordTool) (w : ℚ)
    (d0 : List (String × ScoreEntry)) : List (String × ScoreEntry) :=
  kwTools.enum.foldl (kwStep w kwTools.length) d0

/-- Final phase of hybrid fusion: combined score per dict entry. -/
def hybridFinalize (fmt : ℚ → String) (d : List (String × ScoreEntry)) :
    List ToolCandidate :=
  d.map (fun p =>
    let combined := p.2.semantic + p.2.keyword
    { p.2.tool with
      final_score := combined,
      reasoning := "Hybrid: semantic=" ++ fmt p.2.semantic ++
        ", keyword=" ++ fmt p.2.keyword })

/-- The merged `tool_scores` dict of `hybrid_search`. -/
def hybridScores (fmt : ℚ → String) (serverHits : List (String × ℚ))
    (toolHitLists : List (List ToolHit)) (kwTools : List KeywordTool) (query : String)
    (limit : ℕ) (w : ℚ) : List (String × ScoreEntry) :=
  let semantic_results := semantic_search fmt serverHits toolHitLists query limit true
  addKeywordScores kwTools w (addSemanticScores semantic_results.tools w)

/-- `hybrid_search`: fuse the semantic ranking with the external keyword
ranking by rank-decayed scores, merge by tool name, sort descending,
truncate to `limit`.  `kwTools` is the keyword collaborator's ranked list
(empty when that call failed, matching the `except` fallback). -/
def hybrid_search (fmt : ℚ → String) (serverHits : List (String × ℚ))
    (toolHitLists : List (List ToolHit)) (kwTools : List KeywordTool) (query : String)
    (limit : ℕ) (w : ℚ) : SemanticSearchResult :=
  let semantic_results := semantic_search fmt serverHits toolHitLists query limit true
  let tool_scores := addKeywordScores kwTools w (addSemanticScores semantic_results.tools w)
  let final_results := pySortDesc (fun c => c.final_score) (hybridFinalize fmt tool_scores)
  let out := final_results.take limit
  { query := query, tools := out, total := out.length,
    reasoning := "Hybrid search: " ++ toString semantic_results.tools.length ++
      " semantic + " ++ toString kwTools.length ++ " keyword results" }

/-! ## Context-aware search (`semantic_agent.py`, `_context_aware_search`) -/

/-- Grouping of candidates by `server_name` (Python dict of lists, insertion
order = order of first appearance, each group in candidate order). -/
def groupByServer (cands : List ToolCandidate) : List (String × List ToolCandidate) :=
  cands.foldl
    (fun acc t =>
      match pyGet? acc t.server_name with
      | some ts => pySet acc t.server_name (ts ++ [t])
      | none => pySet acc t.server_name [t])
    []

/-- Sum of `context_score` over a group's tools. -/
def sumContext (ts : List ToolCandidate) : ℚ :=
  (ts.map (fun t => t.context_score)).sum

/-- Python's `max(l, key=f)`: first element with maximal key, `none` on an
empty list (where Python raises). -/
def pyMaxBy {α : Type} (f : α → ℚ) : List α → Option α
  | [] => none
  | x :: xs => some (xs.foldl (fun best cur => if f best < f cur then cur else best) x)

/-- The recommended server of `_context_aware_search`:
`max(server_tools.items(), key=lambda x: sum(t.context_score for t in x[1]))[0]`. -/
def bestServer (server_tools : List (String × List ToolCandidate)) : String :=
  ((pyMaxBy (fun g => sumContext g.2) server_tools).map Prod.fst).getD ""

/-- The `reasoning_parts` list built by `_context_aware_search`. -/
def contextAwareParts (fmt : ℚ → String) (semReasoning : String)
    (server_tools : List (String × List ToolCandidate)) : List String :=
  if server_tools.length > 1 then
    [semReasoning, "\n\nServer Analysis:"] ++
      server_tools.map (fun g =>
        let avg_context_score := sumContext g.2 / (g.2.length : ℚ)
        "- " ++ g.1 ++ ": " ++ toString g.2.length ++ " tools, avg relevance " ++
          fmt avg_context_score) ++
      ["\nRecommendation: " ++ bestServer server_tools ++
        " appears most relevant based on server context"]
  else [semReasoning]

/-- `_context_aware_search` (the part after the semantic retrieval with
`limit*2`): returns the candidate list written to `state["candidates"]` and
the joined reasoning string. -/
def _context_aware_search (fmt : ℚ → String) (serverHits : List (String × ℚ))
    (toolHitLists : List (List ToolHit)) (query : String) (limit : ℕ) :
    List ToolCandidate × String :=
  let semantic_result := semantic_search fmt serverHits toolHitLists query (limit * 2) true
  let candidates := semantic_result.tools
  let server_tools := groupByServer candidates
  let parts := contextAwareParts fmt semantic_result.reasoning server_tools
  (candidates.take limit, String.intercalate "\n" parts)

/-! ## Search orchestrator (`semantic_agent.py`)

The LangGraph state machine: `analyze_query` → one retrieval node →
`rerank_results` → `finalize`.  Retrieval nodes wrap their strategy in
`try/except`; a strategy is modelled as a function into `Except`, whose
`error` case is the raised exception's message. -/

inductive SearchMode
  | semantic
  | hybrid
  | context_aware
deriving DecidableEq, Repr

/-- `SemanticSearchState` (TypedDict).  The `search` entry point always
populates every key, so all fields are present. -/
structure AgentState where
  user_query : String
  search_mode : SearchMode
  limit : ℕ
  include_reasoning : Bool
  semantic_weight : ℚ
  candidates : List ToolCandidate
  selected_tools : List ToolCandidate
  reasoning : String
  completed : Bool
  error : Option String
deriving DecidableEq, Repr

/-- The fixed indicator phrases of `_analyze_query`. -/
def context_indicators : List String :=
  ["which server", "which one", "best for", "recommend",
   "github or", "filesystem or", "database or"]

/-- `_analyze_query`: route to context-aware mode on an indicator phrase and
replace a zero `limit` / zero `semantic_weight` by the defaults 15 / 0.6. -/
def _analyze_query (st : AgentState) : AgentState :=
  let query := toLowerStr st.user_query
  let st :=
    if context_indicators.any (fun ind => strContains query ind) then
      { st with search_mode := .context_aware }
    else st
  let st := if st.limit = 0 then { st with limit := 15 } else st
  let st := if st.semantic_weight = 0 then { st with semantic_weight := 6/10 } else st
  st

/-- The routing targets of `_route_search_mode` (`"end"` is `stop`). -/
inductive RouteTarget
  | semantic
  | hybrid
  | context_aware
  | stop
deriving DecidableEq, Repr

/-- `_route_search_mode`: route on the (exact) mode; with a set `error`
field, route to `END`.  (The error strings written by the nodes are never
empty, so Python truthiness of `state.get("error")` is `isSome`.) -/
def _route_search_mode (st : AgentState) : RouteTarget :=
  if st.error.isSome then .stop
  else
    match st.search_mode with
    | .semantic => .semantic
    | .hybrid => .hybrid
    | .context_aware => .context_aware

/-- A retrieval strategy as seen by its graph node: either a result
(tools and reasoning) or a raised exception's message. -/
def Strategy : Type :=
  AgentState → Except String (List ToolCandidate × String)

/-- The shared `try/except` shape of the three retrieval nodes: on success
write `candidates` and `reasoning`; on an exception write the `error` field
and an empty candidate list. -/
def runSearchNode (strat : Strategy) (failMsg : String) (st : AgentState) :
    AgentState :=
  match strat st with
  | .ok (tools, reasoning) =>
    { st with candidates := tools, reasoning := reasoning }
  | .error e =>
    { st with error := some (failMsg ++ e), candidates := [] }

/-- `_rerank_results`: stable sort of the candidates by `final_score`
descending (`candidates.sort(key=..., reverse=True)` sorts in place, then
`selected_tools` aliases the sorted list). -/
def _rerank_results (st : AgentState) : AgentState :=
  let sorted := pySortDesc (fun c => c.final_score) st.candidates
  { st with candidates := sorted, selected_tools := sorted }

/-- `_finalize`: mark completion. -/
def _finalize (st : AgentState) : AgentState :=
  { st with completed := true }

/-- The graph after `analyze_query`: route, run the retrieval node, then
unconditionally `rerank_results` and `finalize`. -/
def runGraphFrom (sem hyb ctx : Strategy) (st1 : AgentState) : AgentState :=
  match _route_search_mode st1 with
  | .stop => st1
  | .semantic => _finalize (_rerank_results (runSearchNode sem "Semantic search failed: " st1))
  | .hybrid => _finalize (_rerank_results (runSearchNode hyb "Hybrid search failed: " st1))
  | .context_aware =>
    _finalize (_rerank_results (runSearchNode ctx "Context-aware search failed: " st1))

/-- The full compiled graph: `analyze_query`, then the rest. -/
def runGraph (sem hyb ctx : Strategy) (st0 : AgentState) : AgentState :=
  runGraphFrom sem hyb ctx (_analyze_query st0)

/-- The concrete semantic strategy (`_semantic_search` node body). -/
def semStrategy (fmt : ℚ → String) (serverHits : List (String × ℚ))
    (toolHitLists : List (List ToolHit)) : Strategy := fun st =>
  let r := semantic_search fmt serverHits toolHitLists st.user_query st.limit
    st.include_reasoning
  .ok (r.tools, r.reasoning)

/-- The concrete hybrid strategy (`_hybrid_search` node body). -/
def hybStrategy (fmt : ℚ → String) (serverHits : List (String × ℚ))
    (toolHitLists : List (List ToolHit)) (kwTools : List KeywordTool) : Strategy := fun st =>
  let r := hybrid_search fmt serverHits toolHitLists kwTools st.user_query st.limit
    st.semantic_weight
  .ok (r.tools, r.reasoning)

/-- The concrete context-aware strategy (`_context_aware_search` node body). -/
def ctxStrategy (fmt : ℚ → String) (serverHits : List (String × ℚ))
    (toolHitLists : List (List ToolHit)) : Strategy := fun st =>
  .ok (_context_aware_search fmt serverHits toolHitLists st.user_query st.limit)

/-- The agent's `search` pipeline over given store/collaborator contents. -/
def semanticAgentSearch (fmt : ℚ → String) (serverHits : List (String × ℚ))
    (toolHitLists : List (List ToolHit)) (kwTools : List KeywordTool) (st0 : AgentState) :
    AgentState :=
  runGraph (semStrategy fmt serverHits toolHitLists)
    (hybStrategy fmt serverHits toolHitLists kwTools)
    (ctxStrategy fmt serverHits toolHitLists) st0

/-! ## Sync pipeline (`index_tool`, `sync_from_mcpproxy`)

The embedding provider is a parameter `embed : String → Except String (List ℚ)`;
its `error` case models a raised `EmbeddingFailure`.  The Tool Index is an
id-keyed store (`pySet` models ChromaDB's last-write-wins `upsert`); the
Server Index is the id → document map that `servers_collection.get` reads. -/

/-- One record stored in the Tool Index by `index_tool`. -/
structure ToolIndexEntry where
  document : String
  embedding : List ℚ
  server_name : String
  description : String
  has_server_context : Bool
deriving DecidableEq, Repr

/-- The composite searchable text built by `index_tool` (f-string with its
literal indentation, then optional context, optional parameter names from
`input_schema["properties"]`, then `.strip()`). -/
def buildToolDocument (tool_name server_name description : String)
    (props : Option (List String)) (server_context : Option String) : String :=
  let base := "\n        Tool: " ++ tool_name ++
    "\n        Server: " ++ server_name ++
    "\n        Description: " ++ description ++ "\n        "
  let withCtx :=
    match server_context with
    | some ctx => base ++ "\nServer Context: " ++ ctx
    | none => base
  let withParams :=
    match props with
    | some ps => withCtx ++ "\nParameters: " ++ String.intercalate ", " ps
    | none => withCtx
  pyStrip withParams

/-- `index_tool`: embed the composite document (may raise) and upsert the
record under the id `tool_name`. -/
def index_tool (embed : String → Except String (List ℚ))
    (idx : List (String × ToolIndexEntry)) (tool_name server_name description : String)
    (props : Option (List String)) (server_context : Option String) :
    Except String (List (String × ToolIndexEntry)) :=
  let doc := buildToolDocument tool_name server_name description props server_context
  match embed doc with
  | .error e => .error e
  | .ok v =>
    .ok (pySet idx tool_name
      ⟨doc, v, server_name, description, server_context.isSome⟩)

/-- One entry of the aggregator's tool catalog (`/api/tools/list`):
`props = some keys` when `input_schema` is truthy and has `"properties"`. -/
structure CatalogEntry where
  name : String
  server : String
  description : String
  props : Option (List String)
deriving DecidableEq, Repr

/-- Outcome of the sync loop body: ran to completion, or an exception
escaped at some entry (carrying the index state already written). -/
inductive SyncOutcome
  | done (idx : List (String × ToolIndexEntry)) (count : ℕ)
  | raised (idx : List (String × ToolIndexEntry)) (msg : String)
deriving DecidableEq, Repr

/-- The `for tool in tools` loop of `sync_from_mcpproxy`: skip entries with
an empty name or server, look up the server's document as context, index the
tool.  An exception from `index_tool` escapes the loop (the per-entry
`try/except` in the source only guards the server-context lookup). -/
def syncLoop (embed : String → Except String (List ℚ))
    (serverIdx : List (String × String)) :
    List CatalogEntry → List (String × ToolIndexEntry) → ℕ → SyncOutcome
  | [], idx, n => .done idx n
  | t :: rest, idx, n =>
    if t.name = "" ∨ t.server = "" then
      syncLoop embed serverIdx rest idx n
    else
      match index_tool embed idx t.name t.server t.description t.props
          (pyGet? serverIdx t.server) with
      | .error e => .raised idx e
      | .ok idx2 => syncLoop embed serverIdx rest idx2 (n + 1)

/-- `sync_from_mcpproxy`: run the loop inside the function-wide
`try/except`; on any exception return 0 (the upserts already performed
persist in the store). -/
def sync_from_mcpproxy (embed : String → Except String (List ℚ))
    (serverIdx : List (String × String)) (tools : List CatalogEntry)
    (idx : List (String × ToolIndexEntry)) :
    List (String × ToolIndexEntry) × ℕ :=
  match syncLoop embed serverIdx tools idx 0 with
  | .done idx2 n => (idx2, n)
  | .raised idx2 _ => (idx2, 0)

/-! ## Association-list lemmas -/

theorem pyGet?_pySet_self {β : Type} (d : List (String × β)) (k : String) (v : β) :
    pyGet? (pySet d k v) k = some v := by
  induction d with
  | nil => simp [pySet, pyGet?]
  | cons p rest ih =>
    by_cases h : p.1 = k
    · simp [pySet, pyGet?, h]
    · simp [pySet, pyGet?, h, ih]

theorem pyGet?_pySet_ne {β : Type} (d : List (String × β)) {k k' : String} (v : β)
    (h : k' ≠ k) : pyGet? (pySet d k v) k' = pyGet? d k' := by
  induction d with
  | nil => simp [pySet, pyGet?, Ne.symm h]
  | cons p rest ih =>
    by_cases hp : p.1 = k
    · simp [pySet, pyGet?, hp, Ne.symm h]
    · simp [pySet, pyGet?, hp, ih]

theorem pyGet?_pySet_isSome {β : Type} (d : List (String × β)) (k i : String)
    (v : β) (h : (pyGet? d i).isSome) : (pyGet? (pySet d k v) i).isSome := by
  by_cases hk : i = k
  · subst hk; simp [pyGet?_pySet_self]
  · rwa [pyGet?_pySet_ne d v hk]

theorem pyKeys_pySet_of_mem {β : Type} {k : String} (v : β) :
    ∀ d : List (String × β), k ∈ pyKeys d → pyKeys (pySet d k v) = pyKeys d := by
  intro d
  induction d with
  | nil => intro h; simp [pyKeys] at h
  | cons p rest ih =>
    intro h
    by_cases hp : p.1 = k
    · simp [pySet, pyKeys, hp]
    · have hk : k ∈ pyKeys rest := by
        simp only [pyKeys, List.map_cons, List.mem_cons] at h
        exact h.resolve_left fun hh => hp hh.symm
      have ih' := ih hk
      simp only [pyKeys] at ih'
      simp only [pySet, hp, if_false, pyKeys, List.map_cons, ih']

theorem pySet_of_not_mem {β : Type} (d : List (String × β)) (k : String) (v : β)
    (h : k ∉ pyKeys d) : pySet d k v = d ++ [(k, v)] := by
  induction d with
  | nil => simp [pySet]
  | cons p rest ih =>
    simp only [pyKeys, List.map_cons, List.mem_cons] at h
    push_neg at h
    have h1 : ¬ p.1 = k := fun hh => h.1 hh.symm
    simp [pySet, h1, ih (by simpa [pyKeys] using h.2)]

theorem nodup_pyKeys_pySet {β : Type} (d : List (String × β)) (k : String) (v : β)
    (h : (pyKeys d).Nodup) : (pyKeys (pySet d k v)).Nodup := by
  by_cases hmem : k ∈ pyKeys d
  · rwa [pyKeys_pySet_of_mem v d hmem]
  · rw [pySet_of_not_mem d k v hmem]
    have : pyKeys (d ++ [(k, v)]) = pyKeys d ++ [k] := by
      simp [pyKeys]
    rw [this]
    refine List.Nodup.append h (List.nodup_singleton k) ?_
    intro a ha hb
    simp only [List.mem_singleton] at hb
    subst hb
    exact hmem ha

theorem pyGet?_eq_some_of_mem {β : Type} (d : List (String × β)) (k : String)
    (v : β) (hd : (pyKeys d).Nodup) (h : (k, v) ∈ d) : pyGet? d k = some v := by
  induction d with
  | nil => simp at h
  | cons p rest ih =>
    simp only [pyKeys, List.map_cons, List.nodup_cons] at hd
    simp only [List.mem_cons] at h
    rcases h with h | h
    · subst h; simp [pyGet?]
    · have hk : k ∈ pyKeys rest := by
        simp only [pyKeys, List.mem_map]
        exact ⟨(k, v), h, rfl⟩
      have hne : ¬ p.1 = k := by
        intro hh
        exact hd.1 (by simpa [pyKeys, hh] using hk)
      simp only [pyGet?, hne, if_false]
      exact ih (by simpa [pyKeys] using hd.2) h

theorem pyGet?_isSome_iff_mem {β : Type} (d : List (String × β)) (k : String) :
    (pyGet? d k).isSome ↔ k ∈ pyKeys d := by
  induction d with
  | nil => simp [pyGet?, pyKeys]
  | cons p rest ih =>
    by_cases h : p.1 = k
    · simp [pyGet?, pyKeys, h]
    · simp only [pyGet?, h, if_false, pyKeys, List.map_cons, List.mem_cons]
      have ih' := ih
      simp only [pyKeys] at ih'
      rw [ih']
      exact ⟨Or.inr, fun hk => hk.resolve_left fun hh => h hh.symm⟩

theorem pyGet?_append {β : Type} (d₁ d₂ : List (String × β)) (k : String) :
    pyGet? (d₁ ++ d₂) k =
      match pyGet? d₁ k with
      | some v => some v
      | none => pyGet? d₂ k := by
  induction d₁ with
  | nil => simp [pyGet?]
  | cons p rest ih =>
    by_cases h : p.1 = k
    · simp [pyGet?, h]
    · simp [pyGet?, h, ih]

/-! ## Semantic search: result shape -/

/-- The returned tool list of `semantic_search` is always the
limit-truncated, descending-sorted candidate list built from the first
inner hit list (with a missing response both sides are `[]`). -/
theorem semantic_search_tools_eq (fmt : ℚ → String) (serverHits : List (String × ℚ))
    (toolHitLists : List (List ToolHit)) (query : String) (limit : ℕ) (ir : Bool) :
    (semantic_search fmt serverHits toolHitLists query limit ir).tools =
      (pySortDesc (fun c => c.final_score)
        (toolHitLists.headI.map (mkCandidate fmt (_get_server_context serverHits) ir))).take
          limit := by
  by_cases he : toolHitLists.isEmpty
  · have h0 : toolHitLists = [] := List.isEmpty_iff.mp he
    subst h0
    simp [semantic_search, pySortDesc]
  · simp [semantic_search, he]

/-- Claim C8 (amended): a semantic-mode query whose Tool Index query yields
zero hits (a well-formed response `[[]]`) returns an empty candidate list
and total 0 as a normal (non-raising) result, but with reasoning "Found 0
candidates, selected top 0 based on semantic similarity and server context"
(plus a prioritized-servers suffix when the Server Index returned hits);
the literal "No tools found matching the query" is produced only by the
guard for a missing/falsy store response (empty outer `ids` list), a branch
a well-formed zero-hit response never takes. -/
theorem semantic_search_no_hits (fmt : ℚ → String) (serverHits : List (String × ℚ))
    (query : String) (limit : ℕ) (ir : Bool) :
    (semantic_search fmt serverHits [[]] query limit ir).tools = []
    ∧ (semantic_search fmt serverHits [[]] query limit ir).total = 0
    ∧ (serverHits = [] →
        (semantic_search fmt serverHits [[]] query limit ir).reasoning =
          "Found 0 candidates, selected top 0 based on semantic similarity and server context")
    ∧ (semantic_search fmt serverHits [] query limit ir).reasoning =
        "No tools found matching the query" := by
  refine ⟨?_, ?_, ?_, rfl⟩
  · rw [semantic_search_tools_eq]
    simp [pySortDesc]
  · show ((semantic_search fmt serverHits [[]] query limit ir).tools).length = 0
    rw [semantic_search_tools_eq]
    simp [pySortDesc]
  · intro hsh
    subst hsh
    simp [semantic_search, _get_server_context, pySortDesc]
    decide

/-- Claim C2: every candidate returned by a semantic-mode query scores
`final_score = 0.7 * similarity_score + 0.3 * context_score`, with
`similarity_score = max 0 (1 - distance)` of its Tool Index hit and
`context_score` the Server Index similarity of its server (0 when absent);
with an empty Server Index every `context_score` is 0 and
`final_score = 0.7 * similarity_score`. -/
theorem semantic_score_formula (fmt : ℚ → String) (serverHits : List (String × ℚ))
    (toolHitLists : List (List ToolHit)) (query : String) (limit : ℕ) (ir : Bool) :
    (∀ c ∈ (semantic_search fmt serverHits toolHitLists query limit ir).tools,
      ∃ h ∈ toolHitLists.headI, c.tool_name = h.id ∧ c.server_name = h.server_name
        ∧ c.similarity_score = max 0 (1 - h.distance)
        ∧ c.context_score = (pyGet? (_get_server_context serverHits) h.server_name).getD 0
        ∧ c.final_score = 7/10 * c.similarity_score + 3/10 * c.context_score)
    ∧ (serverHits = [] →
        ∀ c ∈ (semantic_search fmt serverHits toolHitLists query limit ir).tools,
          c.context_score = 0 ∧ c.final_score = 7/10 * c.similarity_score) := by
  have main : ∀ c ∈ (semantic_search fmt serverHits toolHitLists query limit ir).tools,
      ∃ h ∈ toolHitLists.headI, c.tool_name = h.id ∧ c.server_name = h.server_name
        ∧ c.similarity_score = max 0 (1 - h.distance)
        ∧ c.context_score = (pyGet? (_get_server_context serverHits) h.server_name).getD 0
        ∧ c.final_score = 7/10 * c.similarity_score + 3/10 * c.context_score := by
    intro c hc
    rw [semantic_search_tools_eq] at hc
    have hc2 : c ∈ pySortDesc (fun c => c.final_score)
        (toolHitLists.headI.map (mkCandidate fmt (_get_server_context serverHits) ir)) :=
      List.take_subset _ _ hc
    have hc3 : c ∈ toolHitLists.headI.map (mkCandidate fmt (_get_server_context serverHits) ir) :=
      (pySortDesc_perm _ _).mem_iff.mp hc2
    obtain ⟨h, hh, rfl⟩ := List.mem_map.mp hc3
    exact ⟨h, hh, rfl, rfl, by simp [mkCandidate, pyMax_eq_max], rfl, rfl⟩
  refine ⟨main, ?_⟩
  intro hsh c hc
  obtain ⟨h, _, _, _, _, hctx, hfin⟩ := main c hc
  subst hsh
  have hzero : c.context_score = 0 := by
    simpa [_get_server_context, pyGet?] using hctx
  exact ⟨hzero, by rw [hfin, hzero]; ring⟩

/-- Claim C6: in each of the three modes, the number of returned tool
candidates is at most `limit`. -/
theorem result_length_le_limit (fmt : ℚ → String) (serverHits : List (String × ℚ))
    (toolHitLists : List (List ToolHit)) (kwTools : List KeywordTool) (query : String)
    (limit : ℕ) (ir : Bool) (w : ℚ) (_hlim : 0 < limit) :
    (semantic_search fmt serverHits toolHitLists query limit ir).tools.length ≤ limit
    ∧ (hybrid_search fmt serverHits toolHitLists kwTools query limit w).tools.length ≤ limit
    ∧ (_context_aware_search fmt serverHits toolHitLists query limit).1.length ≤ limit := by
  refine ⟨?_, ?_, ?_⟩
  · rw [semantic_search_tools_eq]
    exact List.length_take_le _ _
  · exact List.length_take_le _ _
  · exact List.length_take_le _ _

/-! ## Concrete fixtures for witnesses -/

/-- Abstract stand-in for the two-decimal float formatter in witnesses. -/
def fmtW : ℚ → String := fun _ => ""

def serverHitsW : List (String × ℚ) := [("github", 1/4), ("filesystem", 1/2)]

def toolHitsW : List ToolHit :=
  [⟨"github:create_issue", 1/4, "github", "Create an issue"⟩,
   ⟨"filesystem:write_file", 1/2, "filesystem", "Write content"⟩]

def kwToolsW : List KeywordTool :=
  [⟨"filesystem:write_file", "filesystem", "Write content"⟩,
   ⟨"shell:run", "shell", "Run a command"⟩]

/-- The top candidate of `semantic_search` over the witness fixtures. -/
def candW : ToolCandidate :=
  ⟨"github:create_issue", "github", "Create an issue", 3/4, 3/4, 3/4, ""⟩

/-- Claim C8 counterexample: a well-formed zero-hit Tool Index response is
`[[]]` (one empty inner hit list), whose outer `ids` list is truthy — so
`semantic_search` does *not* take the claimed branch: it returns an empty
candidate list whose reasoning is "Found 0 candidates, selected top 0 based
on semantic similarity and server context", not "No tools found matching
the query". -/
theorem semantic_no_hits_counterexample :
    (semantic_search fmtW [] [[]] "q" 5 true).tools = []
    ∧ (semantic_search fmtW [] [[]] "q" 5 true).reasoning ≠
        "No tools found matching the query"
    ∧ (semantic_search fmtW [] [[]] "q" 5 true).reasoning =
        "Found 0 candidates, selected top 0 based on semantic similarity and server context" := by
  refine ⟨?_, ?_, ?_⟩ <;> with_unfolding_all decide

theorem semantic_search_no_hits_witness :
    ([] : List (String × ℚ)) = []
    ∧ (semantic_search fmtW [] [[]] "q" 7 false).reasoning =
        "Found 0 candidates, selected top 0 based on semantic similarity and server context" :=
  ⟨rfl, (semantic_search_no_hits fmtW [] "q" 7 false).2.2.1 rfl⟩

theorem semantic_score_formula_witness :
    candW ∈ (semantic_search fmtW serverHitsW [toolHitsW] "q" 5 false).tools
    ∧ candW.final_score = 7/10 * candW.similarity_score + 3/10 * candW.context_score := by
  have hm : candW ∈ (semantic_search fmtW serverHitsW [toolHitsW] "q" 5 false).tools := by
    with_unfolding_all decide
  obtain ⟨h, _, hprops⟩ :=
    (semantic_score_formula fmtW serverHitsW [toolHitsW] "q" 5 false).1 candW hm
  exact ⟨hm, hprops.2.2.2.2⟩

theorem result_length_le_limit_witness :
    0 < 5 ∧ (semantic_search fmtW serverHitsW [toolHitsW] "q" 5 false).tools.length ≤ 5 :=
  ⟨by decide, (result_length_le_limit fmtW serverHitsW [toolHitsW] kwToolsW "q" 5 false
    (6/10) (by decide)).1⟩

/-! ## Orchestrator claims -/

/-- Claim C5: the `rerank_results` node stably sorts whatever candidate
list the strategy node produced, by `final_score` descending (ties keep
their pre-sort order), and for every routed mode the graph's final list is
produced by exactly this node (followed only by `finalize`). -/
theorem rerank_stable_sort_desc (st : AgentState) (sem hyb ctx : Strategy) :
    List.Perm (_rerank_results st).selected_tools st.candidates
    ∧ List.Sorted (fun a b => b.final_score ≤ a.final_score)
        (_rerank_results st).selected_tools
    ∧ (∀ a b : ToolCandidate, a.final_score = b.final_score →
        List.Sublist [a, b] st.candidates →
        List.Sublist [a, b] (_rerank_results st).selected_tools)
    ∧ (_route_search_mode st = .semantic →
        runGraphFrom sem hyb ctx st =
          _finalize (_rerank_results (runSearchNode sem "Semantic search failed: " st)))
    ∧ (_route_search_mode st = .hybrid →
        runGraphFrom sem hyb ctx st =
          _finalize (_rerank_results (runSearchNode hyb "Hybrid search failed: " st)))
    ∧ (_route_search_mode st = .context_aware →
        runGraphFrom sem hyb ctx st =
          _finalize (_rerank_results (runSearchNode ctx "Context-aware search failed: " st))) := by
  refine ⟨pySortDesc_perm _ _, pySortDesc_sorted _ _, ?_, ?_, ?_, ?_⟩
  · intro a b hab hsub
    exact pySortDesc_stable _ hab hsub
  · intro h; simp [runGraphFrom, h]
  · intro h; simp [runGraphFrom, h]
  · intro h; simp [runGraphFrom, h]

/-- Claim C7: when the routed retrieval strategy raises internally, its node
sets the `error` field and an empty candidate list, and the graph still
proceeds through `Rerank` and `Finalize`, yielding a completed degraded
result instead of aborting. -/
theorem strategy_failure_degrades (sem hyb ctx : Strategy) (st1 : AgentState)
    (e : String)
    (h : (_route_search_mode st1 = .semantic ∧ sem st1 = .error e)
       ∨ (_route_search_mode st1 = .hybrid ∧ hyb st1 = .error e)
       ∨ (_route_search_mode st1 = .context_aware ∧ ctx st1 = .error e)) :
    (runGraphFrom sem hyb ctx st1).error.isSome
    ∧ (runGraphFrom sem hyb ctx st1).candidates = []
    ∧ (runGraphFrom sem hyb ctx st1).selected_tools = []
    ∧ (runGraphFrom sem hyb ctx st1).completed = true := by
  rcases h with ⟨hr, he⟩ | ⟨hr, he⟩ | ⟨hr, he⟩ <;>
    simp [runGraphFrom, hr, runSearchNode, he, _rerank_results, _finalize, pySortDesc]

/-- Claim C10: `_analyze_query` replaces a zero `limit` / zero
`semantic_weight` by the defaults 15 / 0.6 even when the caller set the
zeros explicitly, and `runGraph` hands the analyzed state to whichever
strategy it routes to — so no strategy invoked through the orchestrator
runs with `limit = 0` or `semantic_weight = 0`. -/
theorem analyze_query_zero_defaults (st : AgentState) :
    (_analyze_query st).limit ≠ 0
    ∧ (_analyze_query st).semantic_weight ≠ 0
    ∧ (st.limit = 0 → (_analyze_query st).limit = 15)
    ∧ (st.semantic_weight = 0 → (_analyze_query st).semantic_weight = 6/10)
    ∧ (∀ sem hyb ctx : Strategy,
        runGraph sem hyb ctx st = runGraphFrom sem hyb ctx (_analyze_query st)) := by
  by_cases hind : (context_indicators.any fun ind => strContains (toLowerStr st.user_query) ind) <;>
    by_cases hl : st.limit = 0 <;> by_cases hw : st.semantic_weight = 0 <;>
      refine ⟨?_, ?_, ?_, ?_, fun _ _ _ => rfl⟩ <;>
        simp [_analyze_query, hind, hl, hw]

/-- Two candidates with equal `final_score` (tie), in pre-sort order. -/
def candTieA : ToolCandidate := ⟨"a:x", "a", "da", 1, 0, 1, ""⟩

def candTieB : ToolCandidate := ⟨"b:y", "b", "db", 0, 1, 1, ""⟩

/-- A state about to enter the semantic retrieval node. -/
def stSemW : AgentState :=
  { user_query := "find a tool", search_mode := .semantic, limit := 5,
    include_reasoning := true, semantic_weight := 6/10,
    candidates := [candTieA, candTieB], selected_tools := [], reasoning := "",
    completed := false, error := none }

/-- A request state with explicitly zeroed limit and weight. -/
def stZeroW : AgentState :=
  { user_query := "find a tool", search_mode := .hybrid, limit := 0,
    include_reasoning := true, semantic_weight := 0,
    candidates := [], selected_tools := [], reasoning := "",
    completed := false, error := none }

theorem rerank_stable_sort_desc_witness :
    candTieA.final_score = candTieB.final_score
    ∧ List.Sublist [candTieA, candTieB] (_rerank_results stSemW).selected_tools := by
  have happ := (rerank_stable_sort_desc stSemW (fun _ => .ok ([], ""))
    (fun _ => .ok ([], "")) (fun _ => .ok ([], ""))).2.2.1 candTieA candTieB
    (by decide) (by decide)
  exact ⟨by decide, happ⟩

theorem strategy_failure_degrades_witness :
    ((runGraphFrom (fun _ => .error "index down") (fun _ => .ok ([], ""))
        (fun _ => .ok ([], "")) stSemW).error.isSome
      ∧ (runGraphFrom (fun _ => .error "index down") (fun _ => .ok ([], ""))
          (fun _ => .ok ([], "")) stSemW).completed = true) :=
  have h := strategy_failure_degrades (fun _ => .error "index down")
    (fun _ => .ok ([], "")) (fun _ => .ok ([], "")) stSemW "index down"
    (Or.inl ⟨by decide, rfl⟩)
  ⟨h.1, h.2.2.2⟩

theorem analyze_query_zero_defaults_witness :
    stZeroW.limit = 0 ∧ stZeroW.semantic_weight = 0
    ∧ (_analyze_query stZeroW).limit = 15
    ∧ (_analyze_query stZeroW).semantic_weight = 6/10 :=
  ⟨rfl, rfl, (analyze_query_zero_defaults stZeroW).2.2.1 rfl,
    (analyze_query_zero_defaults stZeroW).2.2.2.1 rfl⟩

/-! ## Context-aware claims -/

theorem pyMaxBy_foldl_spec {α : Type} (f : α → ℚ) :
    ∀ (xs : List α) (b : α),
      (xs.foldl (fun best cur => if f best < f cur then cur else best) b) ∈ b :: xs
      ∧ f b ≤ f (xs.foldl (fun best cur => if f best < f cur then cur else best) b)
      ∧ ∀ y ∈ xs, f y ≤ f (xs.foldl (fun best cur => if f best < f cur then cur else best) b) := by
  intro xs
  induction xs with
  | nil =>
    intro b
    exact ⟨List.mem_cons_self b [], le_refl _, by intro y hy; simp at hy⟩
  | cons c cs ih =>
    intro b
    simp only [List.foldl_cons]
    obtain ⟨hmem, hle, hall⟩ := ih (if f b < f c then c else b)
    have hstep_b : f b ≤ f (if f b < f c then c else b) := by
      by_cases hbc : f b < f c
      · rw [if_pos hbc]; exact le_of_lt hbc
      · rw [if_neg hbc]
    have hstep_c : f c ≤ f (if f b < f c then c else b) := by
      by_cases hbc : f b < f c
      · rw [if_pos hbc]
      · rw [if_neg hbc]; exact le_of_not_lt hbc
    have hmem' :
        (cs.foldl (fun best cur => if f best < f cur then cur else best)
          (if f b < f c then c else b)) ∈ b :: c :: cs := by
      rcases List.mem_cons.mp hmem with h | h
      · rw [h]
        by_cases hbc : f b < f c
        · rw [if_pos hbc]
          exact List.mem_cons_of_mem _ (List.mem_cons_self _ _)
        · rw [if_neg hbc]
          exact List.mem_cons_self _ _
      · exact List.mem_cons_of_mem _ (List.mem_cons_of_mem _ h)
    refine ⟨hmem', le_trans hstep_b hle, ?_⟩
    intro y hy
    rcases List.mem_cons.mp hy with h | h
    · rw [h]; exact le_trans hstep_c hle
    · exact hall y h

theorem pyMaxBy_spec {α : Type} (f : α → ℚ) (x : α) (xs : List α) :
    ∃ m, pyMaxBy f (x :: xs) = some m ∧ m ∈ x :: xs ∧ ∀ y ∈ x :: xs, f y ≤ f m := by
  obtain ⟨hmem, hle, hall⟩ := pyMaxBy_foldl_spec f xs x
  refine ⟨_, rfl, hmem, ?_⟩
  intro y hy
  rcases List.mem_cons.mp hy with h | h
  · exact h ▸ hle
  · exact hall y h

/-- Claim C4: in a context-aware search whose semantic retrieval (with
`k = limit*2`) yields candidates from at least two servers, the server named
in the recommendation line of the reasoning is one maximizing the **sum** of
`context_score` over its candidates, and the returned candidate list is the
first `limit` candidates of the original semantic ranking, unchanged by the
grouping. -/
theorem context_aware_recommendation (fmt : ℚ → String)
    (serverHits : List (String × ℚ)) (toolHitLists : List (List ToolHit)) (query : String)
    (limit : ℕ) (cands : List ToolCandidate)
    (hc : cands = (semantic_search fmt serverHits toolHitLists query (limit * 2) true).tools)
    (groups : List (String × List ToolCandidate))
    (hg : groups = groupByServer cands)
    (h2 : 2 ≤ groups.length) :
    (∃ g ∈ groups, g.1 = bestServer groups
      ∧ ∀ g' ∈ groups, sumContext g'.2 ≤ sumContext g.2)
    ∧ ("\nRecommendation: " ++ bestServer groups ++
        " appears most relevant based on server context") ∈
        contextAwareParts fmt
          (semantic_search fmt serverHits toolHitLists query (limit * 2) true).reasoning groups
    ∧ (_context_aware_search fmt serverHits toolHitLists query limit).1 = cands.take limit := by
  obtain ⟨g0, gs, rfl⟩ : ∃ g0 gs, groups = g0 :: gs := by
    cases groups with
    | nil => simp at h2
    | cons g0 gs => exact ⟨g0, gs, rfl⟩
  obtain ⟨m, hmax, hmem, hall⟩ := pyMaxBy_spec (fun g => sumContext g.2) g0 gs
  have hbest : bestServer (g0 :: gs) = m.1 := by
    simp [bestServer, hmax]
  refine ⟨⟨m, hmem, hbest.symm, hall⟩, ?_, ?_⟩
  · have hlen : (g0 :: gs).length > 1 := h2
    simp only [contextAwareParts, if_pos hlen]
    simp
  · rw [_context_aware_search, ← hc]

theorem context_aware_recommendation_witness :
    2 ≤ (groupByServer
          (semantic_search fmtW serverHitsW [toolHitsW] "q" (5 * 2) true).tools).length
    ∧ (_context_aware_search fmtW serverHitsW [toolHitsW] "q" 5).1 =
        (semantic_search fmtW serverHitsW [toolHitsW] "q" (5 * 2) true).tools.take 5 := by
  have h2 : 2 ≤ (groupByServer
      (semantic_search fmtW serverHitsW [toolHitsW] "q" (5 * 2) true).tools).length := by
    with_unfolding_all decide
  exact ⟨h2, (context_aware_recommendation fmtW serverHitsW [toolHitsW] "q" 5
    _ rfl _ rfl h2).2.2⟩

/-! ## Sync pipeline claims -/

/-- The Tool Index state carried by a sync outcome. -/
def SyncOutcome.index : SyncOutcome → List (String × ToolIndexEntry)
  | .done idx _ => idx
  | .raised idx _ => idx

theorem sync_fst_eq_index (embed : String → Except String (List ℚ))
    (serverIdx : List (String × String)) (tools : List CatalogEntry)
    (idx : List (String × ToolIndexEntry)) :
    (sync_from_mcpproxy embed serverIdx tools idx).1 =
      (syncLoop embed serverIdx tools idx 0).index := by
  rw [sync_from_mcpproxy]
  cases syncLoop embed serverIdx tools idx 0 <;> rfl

theorem index_tool_ok_shape (embed : String → Except String (List ℚ))
    (idx : List (String × ToolIndexEntry)) (tn sn ds : String)
    (props : Option (List String)) (ctx : Option String)
    (idx2 : List (String × ToolIndexEntry))
    (h : index_tool embed idx tn sn ds props ctx = .ok idx2) :
    ∃ e, idx2 = pySet idx tn e := by
  rw [index_tool] at h
  cases hembed : embed (buildToolDocument tn sn ds props ctx) with
  | error e => rw [hembed] at h; cases h
  | ok v =>
    rw [hembed] at h
    cases h
    exact ⟨_, rfl⟩

theorem syncLoop_index_preserves (embed : String → Except String (List ℚ))
    (serverIdx : List (String × String)) :
    ∀ (tools : List CatalogEntry) (idx : List (String × ToolIndexEntry)) (n : ℕ)
      (i : String),
      ((pyGet? idx i).isSome →
        (pyGet? (syncLoop embed serverIdx tools idx n).index i).isSome)
      ∧ (i ∉ tools.map CatalogEntry.name →
        pyGet? (syncLoop embed serverIdx tools idx n).index i = pyGet? idx i) := by
  intro tools
  induction tools with
  | nil => exact fun idx n i => ⟨fun hs => hs, fun _ => rfl⟩
  | cons t rest ih =>
    intro idx n i
    by_cases hskip : t.name = "" ∨ t.server = ""
    · rw [syncLoop, if_pos hskip]
      exact ⟨fun hs => (ih idx n i).1 hs,
        fun hnm => (ih idx n i).2 (fun hmem =>
          hnm (by simpa using Or.inr (by simpa using hmem)))⟩
    · rw [syncLoop, if_neg hskip]
      cases hidx : index_tool embed idx t.name t.server t.description t.props
          (pyGet? serverIdx t.server) with
      | error e => exact ⟨fun hs => hs, fun _ => rfl⟩
      | ok idx2 =>
        obtain ⟨entry, rfl⟩ := index_tool_ok_shape _ _ _ _ _ _ _ _ hidx
        refine ⟨?_, ?_⟩
        · intro hs
          exact (ih _ (n + 1) i).1 (pyGet?_pySet_isSome idx t.name i entry hs)
        · intro hnm
          have hne : i ≠ t.name := by
            intro hi
            exact hnm (by simp [hi])
          have hrest : i ∉ rest.map CatalogEntry.name := by
            intro hmem
            exact hnm (by simpa using Or.inr hmem)
          show pyGet? (syncLoop embed serverIdx rest (pySet idx t.name entry) (n + 1)).index i
            = pyGet? idx i
          rw [(ih _ (n + 1) i).2 hrest, pyGet?_pySet_ne idx entry hne]

/-- Claim C9: `sync_from_mcpproxy` only upserts catalog entries and never
deletes Tool Index records: every id present before a sync is still present
after it, and an id absent from the synced catalog keeps its exact previous
record — so a tool omitted by a second sync stays retrievable. -/
theorem sync_never_deletes (embed : String → Except String (List ℚ))
    (serverIdx : List (String × String)) (tools : List CatalogEntry)
    (idx : List (String × ToolIndexEntry)) (i : String) :
    ((pyGet? idx i).isSome →
      (pyGet? (sync_from_mcpproxy embed serverIdx tools idx).1 i).isSome)
    ∧ (i ∉ tools.map CatalogEntry.name →
      pyGet? (sync_from_mcpproxy embed serverIdx tools idx).1 i = pyGet? idx i) := by
  rw [sync_fst_eq_index]
  exact syncLoop_index_preserves embed serverIdx tools idx 0 i

theorem syncLoop_append (embed : String → Except String (List ℚ))
    (serverIdx : List (String × String)) :
    ∀ (l1 l2 : List CatalogEntry) (idx : List (String × ToolIndexEntry)) (n : ℕ),
      syncLoop embed serverIdx (l1 ++ l2) idx n =
        match syncLoop embed serverIdx l1 idx n with
        | .done idx2 m => syncLoop embed serverIdx l2 idx2 m
        | .raised idx2 e => .raised idx2 e := by
  intro l1
  induction l1 with
  | nil => intro l2 idx n; rfl
  | cons t rest ih =>
    intro l2 idx n
    by_cases hskip : t.name = "" ∨ t.server = ""
    · rw [List.cons_append, syncLoop, if_pos hskip, syncLoop, if_pos hskip]
      exact ih l2 idx n
    · rw [List.cons_append, syncLoop, if_neg hskip, syncLoop, if_neg hskip]
      cases index_tool embed idx t.name t.server t.description t.props
          (pyGet? serverIdx t.server) with
      | error e => rfl
      | ok idx2 => exact ih l2 idx2 (n + 1)

/-- Claim C1 (amended): `sync_from_mcpproxy` never raises (the function-wide
`except` catches everything), but a single entry whose embedding call raises
`EmbeddingFailure` aborts the indexing of all remaining entries: entries
upserted before the failing one persist, no later entry is indexed, the
returned count is 0 instead of the number of successfully indexed entries,
and no separate failure count is reported. -/
theorem sync_aborts_on_embedding_failure (embed : String → Except String (List ℚ))
    (serverIdx : List (String × String)) (pre post : List CatalogEntry)
    (bad : CatalogEntry) (idx idx' : List (String × ToolIndexEntry)) (n : ℕ)
    (e : String)
    (hpre : syncLoop embed serverIdx pre idx 0 = .done idx' n)
    (hbadname : ¬(bad.name = "" ∨ bad.server = ""))
    (hbad : index_tool embed idx' bad.name bad.server bad.description bad.props
        (pyGet? serverIdx bad.server) = .error e) :
    sync_from_mcpproxy embed serverIdx (pre ++ bad :: post) idx = (idx', 0) := by
  have hstep : syncLoop embed serverIdx (bad :: post) idx' n = .raised idx' e := by
    rw [syncLoop, if_neg hbadname, hbad]
  have hfull : syncLoop embed serverIdx (pre ++ bad :: post) idx 0 = .raised idx' e := by
    rw [syncLoop_append, hpre]
    exact hstep
  rw [sync_from_mcpproxy, hfull]

/-- An embedding provider that always succeeds. -/
def embedOkW : String → Except String (List ℚ) := fun _ => .ok []

def catalogW1 : List CatalogEntry :=
  [⟨"s:a", "s", "da", none⟩, ⟨"s:b", "s", "db", none⟩]

def catalogW2 : List CatalogEntry := [⟨"s:b", "s", "db", none⟩]

/-- Tool Index contents after the first witness sync. -/
def toolIdxW1 : List (String × ToolIndexEntry) :=
  (sync_from_mcpproxy embedOkW [] catalogW1 []).1

theorem sync_never_deletes_witness :
    (pyGet? toolIdxW1 "s:a").isSome
    ∧ "s:a" ∉ catalogW2.map CatalogEntry.name
    ∧ (pyGet? (sync_from_mcpproxy embedOkW [] catalogW2 toolIdxW1).1 "s:a").isSome
    ∧ pyGet? (sync_from_mcpproxy embedOkW [] catalogW2 toolIdxW1).1 "s:a"
        = pyGet? toolIdxW1 "s:a" := by
  have h1 : (pyGet? toolIdxW1 "s:a").isSome := by with_unfolding_all decide
  have h2 : "s:a" ∉ catalogW2.map CatalogEntry.name := by decide
  exact ⟨h1, h2, (sync_never_deletes embedOkW [] catalogW2 toolIdxW1 "s:a").1 h1,
    (sync_never_deletes embedOkW [] catalogW2 toolIdxW1 "s:a").2 h2⟩

/-- An embedding provider that raises `EmbeddingFailure` exactly on
documents containing the character `X`. -/
def embedFailW : String → Except String (List ℚ) :=
  fun doc => if doc.data.contains 'X' then .error "EmbeddingFailure" else .ok []

def catalogFailW : List CatalogEntry :=
  [⟨"s:a", "s", "da", none⟩, ⟨"s:bad", "s", "X", none⟩, ⟨"s:c", "s", "dc", none⟩]

/-- Claim C1 counterexample: for a three-entry catalog whose middle entry's
embedding raises, `sync_from_mcpproxy` returns count 0 — not the claimed
`count_indexed` of 2 covering the other entries — leaves the entry after the
failing one unindexed, and reports no separate failure count. -/
theorem sync_partial_failure_counterexample :
    (sync_from_mcpproxy embedFailW [] catalogFailW []).2 = 0
    ∧ ¬((sync_from_mcpproxy embedFailW [] catalogFailW []).2 = 2)
    ∧ pyGet? (sync_from_mcpproxy embedFailW [] catalogFailW []).1 "s:c" = none
    ∧ (pyGet? (sync_from_mcpproxy embedFailW [] catalogFailW []).1 "s:a").isSome := by
  with_unfolding_all decide

/-- The Tool Index record written for `s:a` before the failing entry. -/
def idxPreW : List (String × ToolIndexEntry) :=
  [("s:a", ⟨"Tool: s:a\n        Server: s\n        Description: da", [], "s", "da", false⟩)]

theorem sync_aborts_on_embedding_failure_witness :
    syncLoop embedFailW [] [⟨"s:a", "s", "da", none⟩] [] 0 = .done idxPreW 1
    ∧ sync_from_mcpproxy embedFailW []
        ([⟨"s:a", "s", "da", none⟩] ++ ⟨"s:bad", "s", "X", none⟩ ::
          [⟨"s:c", "s", "dc", none⟩]) [] = (idxPreW, 0) := by
  have hpre : syncLoop embedFailW [] [⟨"s:a", "s", "da", none⟩] [] 0 = .done idxPreW 1 := by
    with_unfolding_all decide
  have hbad : index_tool embedFailW idxPreW "s:bad" "s" "X" none
      (pyGet? ([] : List (String × String)) "s") = .error "EmbeddingFailure" := by
    with_unfolding_all rfl
  exact ⟨hpre, sync_aborts_on_embedding_failure embedFailW []
    [⟨"s:a", "s", "da", none⟩] [⟨"s:c", "s", "dc", none⟩] ⟨"s:bad", "s", "X", none⟩
    [] idxPreW 1 "EmbeddingFailure" hpre (by decide) hbad⟩

/-! ## Hybrid fusion claims -/

theorem foldl_pySet_fresh {α β : Type} (key : α → String) (val : α → β) :
    ∀ (ps : List α) (acc : List (String × β)),
      (ps.map key).Nodup → (∀ p ∈ ps, key p ∉ pyKeys acc) →
      ps.foldl (fun d p => pySet d (key p) (val p)) acc =
        acc ++ ps.map (fun p => (key p, val p)) := by
  intro ps
  induction ps with
  | nil => intro acc _ _; simp
  | cons p rest ih =>
    intro acc hnd hfresh
    obtain ⟨hp_notin, hnd_rest⟩ :
        (∀ x ∈ rest, ¬key x = key p) ∧ (rest.map key).Nodup := by simpa using hnd
    simp only [List.foldl_cons, List.map_cons]
    rw [pySet_of_not_mem acc (key p) (val p) (hfresh p (List.mem_cons_self _ _))]
    have hfresh2 : ∀ q ∈ rest, key q ∉ pyKeys (acc ++ [(key p, val p)]) := by
      intro q hq hmem
      have hkeys : pyKeys (acc ++ [(key p, val p)]) = pyKeys acc ++ [key p] := by
        simp [pyKeys]
      rw [hkeys] at hmem
      rcases List.mem_append.mp hmem with h | h
      · exact hfresh q (List.mem_cons_of_mem _ hq) h
      · have hqp : key q = key p := by simpa using h
        exact hp_notin q hq hqp
    rw [ih (acc ++ [(key p, val p)]) hnd_rest hfresh2]
    simp

theorem pyGet?_map_assoc {α β : Type} (key : α → String) (val : α → β) :
    ∀ (ps : List α) (name : String),
      pyGet? (ps.map (fun p => (key p, val p))) name =
        (ps.find? (fun p => key p == name)).map val := by
  intro ps
  induction ps with
  | nil => intro name; rfl
  | cons p rest ih =>
    intro name
    by_cases h : key p = name
    · have hb : (key p == name) = true := by simpa using h
      simp [pyGet?, List.find?_cons, h, hb]
    · have hb : (key p == name) = false := by simpa using h
      simp [pyGet?, List.find?_cons, h, hb, ih]

theorem enum_map_name (semTools : List ToolCandidate) :
    semTools.enum.map (fun p => p.2.tool_name) =
      semTools.map (fun c => c.tool_name) := by
  rw [show (fun p : ℕ × ToolCandidate => p.2.tool_name) =
    (fun c : ToolCandidate => c.tool_name) ∘ Prod.snd from rfl]
  rw [← List.map_map, List.enum_map_snd]

theorem addSemanticScores_eq_map (semTools : List ToolCandidate) (w : ℚ)
    (hnd : (semTools.map (fun c => c.tool_name)).Nodup) :
    addSemanticScores semTools w =
      semTools.enum.map (fun p => (p.2.tool_name, semEntry w semTools.length p)) := by
  have henum : (semTools.enum.map (fun p => p.2.tool_name)).Nodup := by
    rw [enum_map_name]; exact hnd
  have h1 := foldl_pySet_fresh (fun p : ℕ × ToolCandidate => p.2.tool_name)
    (semEntry w semTools.length) semTools.enum [] henum
    (fun q _ => by simp [pyKeys])
  simpa [addSemanticScores] using h1

theorem addSemanticScores_lookup (semTools : List ToolCandidate) (w : ℚ)
    (hnd : (semTools.map (fun c => c.tool_name)).Nodup) (name : String) :
    pyGet? (addSemanticScores semTools w) name =
      (semTools.enum.find? (fun p => p.2.tool_name == name)).map
        (semEntry w semTools.length) := by
  rw [addSemanticScores_eq_map semTools w hnd]
  exact pyGet?_map_assoc _ _ _ _

theorem pyGet?_kwStep_ne (w : ℚ) (M : ℕ) (d : List (String × ScoreEntry))
    (p : ℕ × KeywordTool) {name : String} (hne : name ≠ p.2.name) :
    pyGet? (kwStep w M d p) name = pyGet? d name := by
  rw [kwStep]
  cases pyGet? d p.2.name with
  | some e => exact pyGet?_pySet_ne d _ hne
  | none => exact pyGet?_pySet_ne d _ hne

theorem foldl_kwStep_not_mem (w : ℚ) (M : ℕ) :
    ∀ (ps : List (ℕ × KeywordTool)) (d : List (String × ScoreEntry)) (name : String),
      name ∉ ps.map (fun p => p.2.name) →
      pyGet? (ps.foldl (kwStep w M) d) name = pyGet? d name := by
  intro ps
  induction ps with
  | nil => intro d name _; rfl
  | cons p rest ih =>
    intro d name hnm
    have hne : name ≠ p.2.name := fun h => hnm (by simp [h])
    have hrest : name ∉ rest.map (fun p => p.2.name) :=
      fun h => hnm (by simpa using Or.inr h)
    rw [List.foldl_cons, ih (kwStep w M d p) name hrest, pyGet?_kwStep_ne w M d p hne]

theorem foldl_kwStep_lookup (w : ℚ) (M : ℕ) :
    ∀ (ps : List (ℕ × KeywordTool)) (d : List (String × ScoreEntry)) (name : String),
      (ps.map (fun p => p.2.name)).Nodup →
      pyGet? (ps.foldl (kwStep w M) d) name =
        match ps.find? (fun p => p.2.name == name) with
        | some p =>
          some (match pyGet? d name with
            | some e => { e with keyword := (1 - (p.1 : ℚ) / (M : ℚ)) * (1 - w) }
            | none => ⟨0, (1 - (p.1 : ℚ) / (M : ℚ)) * (1 - w),
                keywordCandidate p.2 p.1 ((1 - (p.1 : ℚ) / (M : ℚ)) * (1 - w))⟩)
        | none => pyGet? d name := by
  intro ps
  induction ps with
  | nil => intro d name _; rfl
  | cons p rest ih =>
    intro d name hnd
    obtain ⟨hp_notin, hnd_rest⟩ :
        (∀ x ∈ rest, ¬x.2.name = p.2.name) ∧ (rest.map (fun p => p.2.name)).Nodup := by
      simpa using hnd
    by_cases hpn : p.2.name = name
    · have hb : (p.2.name == name) = true := by simpa using hpn
      have hrest_nm : name ∉ rest.map (fun p => p.2.name) := by
        intro hmem
        obtain ⟨q, hq, hqn⟩ := List.mem_map.mp hmem
        exact hp_notin q hq (by rw [hqn, hpn])
      rw [List.foldl_cons, foldl_kwStep_not_mem w M rest (kwStep w M d p) name hrest_nm]
      rw [List.find?_cons, hb]
      rw [kwStep, hpn]
      cases pyGet? d name with
      | some e => exact pyGet?_pySet_self d name _
      | none => exact pyGet?_pySet_self d name _
    · have hb : (p.2.name == name) = false := by simpa using hpn
      have hne : name ≠ p.2.name := fun h => hpn h.symm
      rw [List.foldl_cons, ih (kwStep w M d p) name hnd_rest,
        List.find?_cons, hb, pyGet?_kwStep_ne w M d p hne]

theorem pyKeys_kwStep_nodup (w : ℚ) (M : ℕ) (d : List (String × ScoreEntry))
    (p : ℕ × KeywordTool) (h : (pyKeys d).Nodup) :
    (pyKeys (kwStep w M d p)).Nodup := by
  rw [kwStep]
  cases pyGet? d p.2.name with
  | some e => exact nodup_pyKeys_pySet d _ _ h
  | none => exact nodup_pyKeys_pySet d _ _ h

theorem foldl_kwStep_keys_nodup (w : ℚ) (M : ℕ) :
    ∀ (ps : List (ℕ × KeywordTool)) (d : List (String × ScoreEntry)),
      (pyKeys d).Nodup → (pyKeys (ps.foldl (kwStep w M) d)).Nodup := by
  intro ps
  induction ps with
  | nil => intro d h; exact h
  | cons p rest ih =>
    intro d h
    exact ih (kwStep w M d p) (pyKeys_kwStep_nodup w M d p h)

/-- Every `tool_scores` value's candidate carries the dict key as its
`tool_name`. -/
def EntriesNamed (d : List (String × ScoreEntry)) : Prop :=
  ∀ kv ∈ d, kv.2.tool.tool_name = kv.1

theorem pyGet?_mem {β : Type} :
    ∀ (d : List (String × β)) (k : String) (v : β),
      pyGet? d k = some v → (k, v) ∈ d := by
  intro d
  induction d with
  | nil => intro k v h; cases h
  | cons p rest ih =>
    intro k v h
    rw [pyGet?] at h
    by_cases hk : p.1 = k
    · rw [if_pos hk] at h
      cases h
      have hp : (k, p.2) = p := by
        rw [← hk]
      rw [hp]
      exact List.mem_cons_self _ _
    · rw [if_neg hk] at h
      exact List.mem_cons_of_mem _ (ih k v h)

theorem entriesNamed_pySet (d : List (String × ScoreEntry)) (k : String)
    (v : ScoreEntry) (hd : EntriesNamed d) (hv : v.tool.tool_name = k) :
    EntriesNamed (pySet d k v) := by
  induction d with
  | nil =>
    intro kv hkv
    simp only [pySet, List.mem_singleton] at hkv
    subst hkv
    exact hv
  | cons p rest ih =>
    intro kv hkv
    rw [pySet] at hkv
    by_cases hk : p.1 = k
    · rw [if_pos hk] at hkv
      rcases List.mem_cons.mp hkv with h | h
      · subst h; exact hv
      · exact hd kv (List.mem_cons_of_mem _ h)
    · rw [if_neg hk] at hkv
      rcases List.mem_cons.mp hkv with h | h
      · subst h; exact hd p (List.mem_cons_self _ _)
      · exact ih (fun q hq => hd q (List.mem_cons_of_mem _ hq)) kv h

theorem entriesNamed_addSemanticScores (semTools : List ToolCandidate) (w : ℚ) :
    EntriesNamed (addSemanticScores semTools w) := by
  rw [addSemanticScores]
  generalize semTools.enum = ps
  have : ∀ (qs : List (ℕ × ToolCandidate)) (acc : List (String × ScoreEntry)),
      EntriesNamed acc →
      EntriesNamed (qs.foldl
        (fun acc p => pySet acc p.2.tool_name (semEntry w semTools.length p)) acc) := by
    intro qs
    induction qs with
    | nil => exact fun acc h => h
    | cons p rest ih =>
      intro acc h
      exact ih _ (entriesNamed_pySet acc p.2.tool_name _ h rfl)
  exact this ps [] (fun kv hkv => by cases hkv)

theorem entriesNamed_kwStep (w : ℚ) (M : ℕ) (d : List (String × ScoreEntry))
    (p : ℕ × KeywordTool) (hd : EntriesNamed d) :
    EntriesNamed (kwStep w M d p) := by
  rw [kwStep]
  cases hget : pyGet? d p.2.name with
  | some e =>
    have he : e.tool.tool_name = p.2.name := hd (p.2.name, e) (pyGet?_mem d _ e hget)
    exact entriesNamed_pySet d _ _ hd he
  | none => exact entriesNamed_pySet d _ _ hd rfl

theorem entriesNamed_addKeywordScores (kwTools : List KeywordTool) (w : ℚ)
    (d0 : List (String × ScoreEntry)) (h0 : EntriesNamed d0) :
    EntriesNamed (addKeywordScores kwTools w d0) := by
  rw [addKeywordScores]
  generalize kwTools.enum = ps
  induction ps generalizing d0 with
  | nil => exact h0
  | cons p rest ih =>
    exact ih (kwStep w kwTools.length d0 p) (entriesNamed_kwStep w kwTools.length d0 p h0)

theorem enum_map_comp_snd {α β : Type} (f : α → β) (l : List α) :
    l.enum.map (fun p => f p.2) = l.map f := by
  rw [show (fun p : ℕ × α => f p.2) = f ∘ Prod.snd from rfl]
  rw [← List.map_map, List.enum_map_snd]

/-- Claim-side semantic contribution of the tool named `name`:
`semantic_weight * (1 - i/N) * final_score` when the tool appears at 0-based
rank `i` in the semantic list of length `N`, 0 otherwise. -/
def semContrib (semTools : List ToolCandidate) (w : ℚ) (name : String) : ℚ :=
  match semTools.enum.find? (fun p => p.2.tool_name == name) with
  | some p => w * (1 - (p.1 : ℚ) / (semTools.length : ℚ)) * p.2.final_score
  | none => 0

/-- Claim-side keyword contribution: `(1 - semantic_weight) * (1 - j/M)`
when the tool appears at 0-based rank `j` in the keyword list of length `M`,
0 otherwise. -/
def kwContrib (kwTools : List KeywordTool) (w : ℚ) (name : String) : ℚ :=
  match kwTools.enum.find? (fun p => p.2.name == name) with
  | some p => (1 - w) * (1 - (p.1 : ℚ) / (kwTools.length : ℚ))
  | none => 0

theorem hybridScores_lookup_sum (semTools : List ToolCandidate)
    (kwTools : List KeywordTool) (w : ℚ)
    (hnds : (semTools.map (fun c => c.tool_name)).Nodup)
    (hndk : (kwTools.map (fun k => k.name)).Nodup)
    (name : String) (e : ScoreEntry)
    (h : pyGet? (addKeywordScores kwTools w (addSemanticScores semTools w)) name
      = some e) :
    e.semantic + e.keyword = semContrib semTools w name + kwContrib kwTools w name := by
  have hndk2 : (kwTools.enum.map (fun p => p.2.name)).Nodup := by
    rw [enum_map_comp_snd]; exact hndk
  rw [addKeywordScores,
    foldl_kwStep_lookup w kwTools.length kwTools.enum _ name hndk2] at h
  have hsem := addSemanticScores_lookup semTools w hnds name
  cases hkf : kwTools.enum.find? (fun p => p.2.name == name) with
  | some q =>
    rw [hkf, hsem] at h
    cases hsf : semTools.enum.find? (fun p => p.2.tool_name == name) with
    | some r =>
      rw [hsf] at h
      simp only [Option.map_some'] at h
      cases h
      simp only [semContrib, kwContrib, hsf, hkf, semEntry]
      ring
    | none =>
      rw [hsf] at h
      simp only [Option.map_none'] at h
      cases h
      simp only [semContrib, kwContrib, hsf, hkf]
      ring
  | none =>
    rw [hkf, hsem] at h
    cases hsf : semTools.enum.find? (fun p => p.2.tool_name == name) with
    | some r =>
      rw [hsf] at h
      simp only [Option.map_some'] at h
      cases h
      simp only [semContrib, kwContrib, hsf, hkf, semEntry]
      ring
    | none =>
      rw [hsf] at h
      simp only [Option.map_none'] at h
      cases h

theorem hybrid_search_tools_eq (fmt : ℚ → String) (serverHits : List (String × ℚ))
    (toolHitLists : List (List ToolHit)) (kwTools : List KeywordTool) (query : String)
    (limit : ℕ) (w : ℚ) :
    (hybrid_search fmt serverHits toolHitLists kwTools query limit w).tools =
      (pySortDesc (fun c => c.final_score)
        (hybridFinalize fmt (addKeywordScores kwTools w (addSemanticScores
          (semantic_search fmt serverHits toolHitLists query limit true).tools w)))).take limit :=
  rfl

theorem pyKeys_addSemanticScores (semTools : List ToolCandidate) (w : ℚ)
    (hnds : (semTools.map (fun c => c.tool_name)).Nodup) :
    (pyKeys (addSemanticScores semTools w)).Nodup := by
  rw [addSemanticScores_eq_map semTools w hnds]
  have : pyKeys (semTools.enum.map
      (fun p => (p.2.tool_name, semEntry w semTools.length p))) =
        semTools.enum.map (fun p => p.2.tool_name) := by
    simp [pyKeys, List.map_map]
  rw [this, enum_map_comp_snd]
  exact hnds

/-- Claim C3: with non-empty semantic and keyword lists (of pairwise
distinct tool names), every hybrid candidate's final score is the sum of
`semantic_weight * (1 - i/N) * semantic final_score` (when at semantic rank
`i`) and `(1 - semantic_weight) * (1 - j/M)` (when at keyword rank `j`),
each term present only when the tool appears in that list; candidates are
merged by `tool_name` (no name twice), sorted descending by the summed
score, and truncated to `limit`. -/
theorem hybrid_fusion_formula (fmt : ℚ → String) (serverHits : List (String × ℚ))
    (toolHitLists : List (List ToolHit)) (kwTools : List KeywordTool) (query : String)
    (limit : ℕ) (w : ℚ) (semTools : List ToolCandidate)
    (hsem : semTools = (semantic_search fmt serverHits toolHitLists query limit true).tools)
    (_hne_sem : semTools ≠ []) (_hne_kw : kwTools ≠ [])
    (hnds : (semTools.map (fun c => c.tool_name)).Nodup)
    (hndk : (kwTools.map (fun k => k.name)).Nodup) :
    (∀ c ∈ (hybrid_search fmt serverHits toolHitLists kwTools query limit w).tools,
        c.final_score = semContrib semTools w c.tool_name
          + kwContrib kwTools w c.tool_name)
    ∧ ((hybrid_search fmt serverHits toolHitLists kwTools query limit w).tools.map
        (fun c => c.tool_name)).Nodup
    ∧ List.Sorted (fun a b => b.final_score ≤ a.final_score)
        (hybrid_search fmt serverHits toolHitLists kwTools query limit w).tools
    ∧ (hybrid_search fmt serverHits toolHitLists kwTools query limit w).tools =
        (pySortDesc (fun c => c.final_score)
          (hybridFinalize fmt
            (addKeywordScores kwTools w (addSemanticScores semTools w)))).take limit := by
  subst hsem
  have hDnodup : (pyKeys (addKeywordScores kwTools w (addSemanticScores
      (semantic_search fmt serverHits toolHitLists query limit true).tools w))).Nodup := by
    rw [addKeywordScores]
    exact foldl_kwStep_keys_nodup w kwTools.length kwTools.enum _
      (pyKeys_addSemanticScores _ w hnds)
  have hNamed : EntriesNamed (addKeywordScores kwTools w (addSemanticScores
      (semantic_search fmt serverHits toolHitLists query limit true).tools w)) :=
    entriesNamed_addKeywordScores kwTools w _
      (entriesNamed_addSemanticScores _ w)
  have hnames : (hybridFinalize fmt (addKeywordScores kwTools w (addSemanticScores
      (semantic_search fmt serverHits toolHitLists query limit true).tools w))).map
        (fun c => c.tool_name) =
      pyKeys (addKeywordScores kwTools w (addSemanticScores
        (semantic_search fmt serverHits toolHitLists query limit true).tools w)) := by
    rw [hybridFinalize, List.map_map, pyKeys]
    refine List.map_congr_left ?_
    intro kv hkv
    exact hNamed kv hkv
  refine ⟨?_, ?_, ?_, rfl⟩
  · intro c hc
    rw [hybrid_search_tools_eq] at hc
    have hc2 := List.take_subset _ _ hc
    have hc3 := (pySortDesc_perm _ _).mem_iff.mp hc2
    obtain ⟨kv, hkv, hceq⟩ := List.mem_map.mp hc3
    have hlookup : pyGet? (addKeywordScores kwTools w (addSemanticScores
        (semantic_search fmt serverHits toolHitLists query limit true).tools w)) kv.1
        = some kv.2 :=
      pyGet?_eq_some_of_mem _ kv.1 kv.2 hDnodup hkv
    have hsum := hybridScores_lookup_sum _ kwTools w hnds hndk kv.1 kv.2 hlookup
    have hname : c.tool_name = kv.1 := by
      rw [← hceq]
      exact hNamed kv hkv
    have hscore : c.final_score = kv.2.semantic + kv.2.keyword := by
      rw [← hceq]
    rw [hscore, hname, hsum]
  · rw [hybrid_search_tools_eq]
    have h1 : ((hybridFinalize fmt (addKeywordScores kwTools w (addSemanticScores
        (semantic_search fmt serverHits toolHitLists query limit true).tools w))).map
          (fun c => c.tool_name)).Nodup := by
      rw [hnames]; exact hDnodup
    have hperm := pySortDesc_perm (fun c : ToolCandidate => c.final_score)
      (hybridFinalize fmt (addKeywordScores kwTools w (addSemanticScores
        (semantic_search fmt serverHits toolHitLists query limit true).tools w)))
    have h2 : ((pySortDesc (fun c => c.final_score)
        (hybridFinalize fmt (addKeywordScores kwTools w (addSemanticScores
          (semantic_search fmt serverHits toolHitLists query limit true).tools w)))).map
            (fun c => c.tool_name)).Nodup :=
      ((hperm.map (fun c => c.tool_name)).nodup_iff).mpr h1
    have hsub := List.take_sublist limit (pySortDesc (fun c : ToolCandidate => c.final_score)
      (hybridFinalize fmt (addKeywordScores kwTools w (addSemanticScores
        (semantic_search fmt serverHits toolHitLists query limit true).tools w))))
    exact (hsub.map (fun c => c.tool_name)).nodup h2
  · rw [hybrid_search_tools_eq]
    exact (pySortDesc_sorted _ _).sublist (List.take_sublist _ _)

theorem hybrid_fusion_formula_witness :
    (semantic_search fmtW serverHitsW [toolHitsW] "q" 5 true).tools ≠ []
    ∧ kwToolsW ≠ []
    ∧ ((semantic_search fmtW serverHitsW [toolHitsW] "q" 5 true).tools.map
        (fun c => c.tool_name)).Nodup
    ∧ (kwToolsW.map (fun k => k.name)).Nodup
    ∧ List.Sorted (fun a b => b.final_score ≤ a.final_score)
        (hybrid_search fmtW serverHitsW [toolHitsW] kwToolsW "q" 5 (6/10)).tools := by
  have h1 : (semantic_search fmtW serverHitsW [toolHitsW] "q" 5 true).tools ≠ [] := by
    with_unfolding_all decide
  have h3 : ((semantic_search fmtW serverHitsW [toolHitsW] "q" 5 true).tools.map
      (fun c => c.tool_name)).Nodup := by
    with_unfolding_all decide
  have h4 : (kwToolsW.map (fun k => k.name)).Nodup := by decide
  exact ⟨h1, by decide, h3, h4,
    (hybrid_fusion_formula fmtW serverHitsW [toolHitsW] kwToolsW "q" 5 (6/10)
      _ rfl h1 (by decide) h3 h4).2.2.1⟩

end MCPAgent
